import Mathlib

/-!
Verification of `kinesis2sse` (markandrus/kinesis2sse).

This file shallowly embeds the Go sources under `internal/kinesis2sse/` and the
service entry point, and proves the behavioural claims about them:

* `timestamp2offset.go` — the `Timestamp2Offset` index: a bounded map from
  offsets to timestamps, backed by an offset→timestamp map and an ordered
  B-tree over `(timestamp, offset)` keys (library `modernc.org/b/v2`).  The
  tree is modelled by its sorted key list; `Seek`/`Next`/`Prev` become
  first-element-at-least / greatest-element-below searches, which is their
  observable behaviour on the tree's contents.
* `record_processor.go` — `dumpRecordProcessor.ProcessRecords`.
* `service.go` — `NewService` port selection, `Service.Start` worker
  rollback, and `Service.handleFunc` request validation.

Go `int` values (offsets, ports, capacities) are modelled as `Int`;
`time.Time` values are modelled as `Int` (they are only ever compared, and
`time.Time.Compare` is a total order).
-/

namespace Kinesis2sse

/-- Model of Go's `cmp.Compare` / `time.Time.Compare`: `.lt` if `a < b`,
`.eq` if `a = b`, `.gt` otherwise. -/
def intCompare (a b : Int) : Ordering :=
  if a < b then .lt else if a = b then .eq else .gt

/-- `timestamp2OffsetsKey` from `timestamp2offset.go`: the B-tree key,
a pair of a timestamp and an offset. -/
structure T2OKey where
  timestamp : Int
  offset : Int
deriving DecidableEq

/-- `timestamp2OffsetsKeyCmp` from `timestamp2offset.go`: compare keys by
timestamp first, then by offset. -/
def timestamp2OffsetsKeyCmp (a b : T2OKey) : Ordering :=
  let c := intCompare a.timestamp b.timestamp
  if c = .eq then intCompare a.offset b.offset else c

/-- Strict order on B-tree keys induced by `timestamp2OffsetsKeyCmp`. -/
def keyLt (a b : T2OKey) : Prop := timestamp2OffsetsKeyCmp a b = .lt

instance : DecidableRel keyLt := fun a b => by
  unfold keyLt; infer_instance

/-- `Tree.Set` of `modernc.org/b/v2`, on the tree's sorted key list: insert
the key at its sorted position, replacing an equal key. -/
def treeSet (key : T2OKey) : List T2OKey → List T2OKey
  | [] => [key]
  | k :: rest =>
    match timestamp2OffsetsKeyCmp key k with
    | .lt => key :: k :: rest
    | .eq => key :: rest
    | .gt => k :: treeSet key rest

/-- `Tree.Delete` of `modernc.org/b/v2`: remove the key if present
(returning the new key list), otherwise report failure (`ok = false`). -/
def treeDelete (key : T2OKey) : List T2OKey → Option (List T2OKey)
  | [] => none
  | k :: rest =>
    if timestamp2OffsetsKeyCmp key k = .eq then some rest
    else (treeDelete key rest).map (k :: ·)

/-- `Tree.Seek` followed by `Enumerator.Next` of `modernc.org/b/v2`: the
first key in tree order that is ≥ the sought key, or `none` (`io.EOF`). -/
def seekNext (key : T2OKey) : List T2OKey → Option T2OKey
  | [] => none
  | k :: rest =>
    if timestamp2OffsetsKeyCmp key k = .gt then seekNext key rest else some k

/-- `Tree.Seek` followed by `Enumerator.Prev` of `modernc.org/b/v2`: the
sought key itself when present; otherwise (the seek overshot, `hit = false`,
so `Prev` first steps back) the greatest key < the sought key; `none`
(`io.EOF`) when no key qualifies. -/
def seekPrev (key : T2OKey) : List T2OKey → Option T2OKey
  | [] => none
  | k :: rest =>
    match timestamp2OffsetsKeyCmp k key with
    | .eq => some k
    | .gt => none
    | .lt =>
      match seekPrev key rest with
      | some k2 => some k2
      | none => some k

/-- Go map lookup `m[k]` on an association list from offsets to
timestamps. -/
def mapLookup (k : Int) : List (Int × Int) → Option Int
  | [] => none
  | p :: rest => if p.1 = k then some p.2 else mapLookup k rest

/-- Go map assignment `m[k] = v`: replace the value at an existing key,
otherwise add the binding. -/
def mapInsert (k v : Int) : List (Int × Int) → List (Int × Int)
  | [] => [(k, v)]
  | p :: rest => if p.1 = k then (k, v) :: rest else p :: mapInsert k v rest

/-- Go map deletion `delete(m, k)`. -/
def mapErase (k : Int) : List (Int × Int) → List (Int × Int)
  | [] => []
  | p :: rest => if p.1 = k then rest else p :: mapErase k rest

/-- `Timestamp2Offset` from `timestamp2offset.go` (the `sync.Mutex` is not
modelled: the claims are about the sequential behaviour under the lock).
`offset2Timestamp` is the Go map from offsets to timestamps,
`timestamp2Offsets` is the B-tree of `(timestamp, offset)` keys, modelled
by its sorted key list. -/
structure Timestamp2Offset where
  capacity : Int
  lastOffset : Int
  offset2Timestamp : List (Int × Int)
  timestamp2Offsets : List T2OKey
deriving DecidableEq

/-- Errors returned by `Timestamp2Offset.Add`, named after the Go error
messages. -/
inductive AddError where
  /-- "offsets must be non-negative" -/
  | negativeOffset
  /-- "cannot add offset %d when last offset was %d" -/
  | outOfOrder (offset lastOffset : Int)
  /-- "old offset to remove %d not found" -/
  | corruptMissingOffset (oldestOffset : Int)
  /-- "timestamp %s for old offset to remove %d not found" -/
  | corruptMissingTree (timestamp oldestOffset : Int)
deriving DecidableEq

/-- The spec's `OutOfOrder` error category: a negative offset or a
non-contiguous offset. -/
def AddError.isOutOfOrder : AddError → Bool
  | .negativeOffset => true
  | .outOfOrder _ _ => true
  | _ => false

/-- The spec's `CorruptState` error category: the entry to evict is absent
from one of the two internal structures. -/
def AddError.isCorruptState : AddError → Bool
  | .corruptMissingOffset _ => true
  | .corruptMissingTree _ _ => true
  | _ => false

/-- `NewTimestamp2Offset` from `timestamp2offset.go`: requires a positive
capacity, starts with `lastOffset = -1` and both structures empty. -/
def NewTimestamp2Offset (capacity : Int) : Option Timestamp2Offset :=
  if capacity ≤ 0 then none
  else some { capacity := capacity, lastOffset := -1,
              offset2Timestamp := [], timestamp2Offsets := [] }

/-- Second half of `Timestamp2Offset.Add` (from the capacity check at line
96 of `timestamp2offset.go` on), after the ordering checks have passed and,
for an empty index, `lastOffset` has been set to the new offset.  `n` is
`len(m.offset2Timestamp)` read before any mutation.  Returns the updated
receiver together with the returned error, mirroring the Go method's
in-place mutation. -/
def addEvictInsert (m : Timestamp2Offset) (offset timestamp n : Int) :
    Timestamp2Offset × Option AddError :=
  let step2 : Timestamp2Offset × Option AddError :=
    if n = m.capacity then
      -- We are at capacity. Remove the oldest entry oldestOffset.
      let oldestOffset := offset - m.capacity
      match mapLookup oldestOffset m.offset2Timestamp with
      | none => (m, some (.corruptMissingOffset oldestOffset))
      | some oldestOffsetTimestamp =>
        match treeDelete ⟨oldestOffsetTimestamp, oldestOffset⟩ m.timestamp2Offsets with
        | none => (m, some (.corruptMissingTree oldestOffsetTimestamp oldestOffset))
        | some tree' =>
          ({ m with timestamp2Offsets := tree',
                    offset2Timestamp := mapErase oldestOffset m.offset2Timestamp },
           none)
    else (m, none)
  match step2 with
  | (_, some e) => (step2.1, some e)
  | (m1, none) =>
    -- Add the newest entry offset.
    ({ m1 with
        offset2Timestamp := mapInsert offset timestamp m1.offset2Timestamp,
        timestamp2Offsets := treeSet ⟨timestamp, offset⟩ m1.timestamp2Offsets,
        lastOffset := offset },
     none)

/-- `Timestamp2Offset.Add` from `timestamp2offset.go`.  Returns the updated
receiver together with the returned error (the Go method mutates its
receiver in place and returns only the error). -/
def add (m : Timestamp2Offset) (offset timestamp : Int) :
    Timestamp2Offset × Option AddError :=
  if offset < 0 then (m, some .negativeOffset)
  else
    let n := (m.offset2Timestamp.length : Int)
    if n = 0 then
      -- Set the initial offset.
      addEvictInsert { m with lastOffset := offset } offset timestamp n
    else if m.lastOffset ≠ offset - 1 then
      (m, some (.outOfOrder offset m.lastOffset))
    else
      addEvictInsert m offset timestamp n

/-- `Timestamp2Offset.NearestOffset` from `timestamp2offset.go`: seek
forward from `(timestamp, 0)`; if that hits the end, seek backward; if both
fail, return `(-1, false)`. -/
def nearestOffset (m : Timestamp2Offset) (timestamp : Int) : Int × Bool :=
  match seekNext ⟨timestamp, 0⟩ m.timestamp2Offsets with
  | some k => (k.offset, true)
  | none =>
    match seekPrev ⟨timestamp, 0⟩ m.timestamp2Offsets with
    | some k => (k.offset, true)
    | none => (-1, false)

/-! ### Order facts about `timestamp2OffsetsKeyCmp` -/

theorem keyCmp_lt_iff {a b : T2OKey} :
    timestamp2OffsetsKeyCmp a b = .lt ↔
      (a.timestamp < b.timestamp ∨
        (a.timestamp = b.timestamp ∧ a.offset < b.offset)) := by
  simp only [timestamp2OffsetsKeyCmp, intCompare]
  by_cases h1 : a.timestamp < b.timestamp
  · simp only [h1, if_true]
    simp
    try omega
  · by_cases h2 : a.timestamp = b.timestamp
    · by_cases h3 : a.offset < b.offset <;> simp [h1, h2, h3]
    · simp only [h1, h2, if_false]
      simp
      try omega

theorem keyLt_iff {a b : T2OKey} :
    keyLt a b ↔
      (a.timestamp < b.timestamp ∨
        (a.timestamp = b.timestamp ∧ a.offset < b.offset)) :=
  keyCmp_lt_iff

theorem keyCmp_eq_iff {a b : T2OKey} :
    timestamp2OffsetsKeyCmp a b = .eq ↔ a = b := by
  have hh : a = b ↔ a.timestamp = b.timestamp ∧ a.offset = b.offset := by
    cases a; cases b; simp
  rw [hh]
  simp only [timestamp2OffsetsKeyCmp, intCompare]
  by_cases h1 : a.timestamp < b.timestamp
  · simp only [h1, if_true]
    simp
    try omega
  · by_cases h2 : a.timestamp = b.timestamp
    · by_cases h3 : a.offset < b.offset
      · simp [h1, h2, h3]
        try omega
      · by_cases h4 : a.offset = b.offset <;> simp [h1, h2, h3, h4]
    · simp only [h1, h2, if_false]
      simp
      try omega

theorem keyCmp_gt_iff {a b : T2OKey} :
    timestamp2OffsetsKeyCmp a b = .gt ↔ keyLt b a := by
  rw [keyLt, keyCmp_lt_iff]
  simp only [timestamp2OffsetsKeyCmp, intCompare]
  by_cases h1 : a.timestamp < b.timestamp
  · simp only [h1, if_true]
    simp
    try omega
  · by_cases h2 : a.timestamp = b.timestamp
    · by_cases h3 : a.offset < b.offset
      · simp [h1, h2, h3]
        try omega
      · by_cases h4 : a.offset = b.offset <;> simp [h1, h2, h3, h4] <;> omega
    · simp only [h1, h2, if_false]
      simp
      try omega

theorem keyCmp_ne_gt_iff {a b : T2OKey} :
    timestamp2OffsetsKeyCmp a b ≠ .gt ↔ (keyLt a b ∨ a = b) := by
  constructor
  · intro h
    rcases hc : timestamp2OffsetsKeyCmp a b with _ | _ | _
    · exact Or.inl hc
    · exact Or.inr (keyCmp_eq_iff.mp hc)
    · exact absurd hc h
  · intro h hc
    rcases h with h | h
    · rw [keyLt] at h
      rw [h] at hc
      exact absurd hc (by decide)
    · rw [keyCmp_eq_iff.mpr h] at hc
      exact absurd hc (by decide)

theorem keyLt_trans {a b c : T2OKey} (h1 : keyLt a b) (h2 : keyLt b c) :
    keyLt a c := by
  rw [keyLt, keyCmp_lt_iff] at h1 h2 ⊢
  rcases h1 with h1 | ⟨h1, h1'⟩ <;> rcases h2 with h2 | ⟨h2, h2'⟩ <;>
    first
      | exact Or.inl (by omega)
      | exact Or.inr ⟨by omega, by omega⟩

theorem keyLt_irrefl (a : T2OKey) : ¬ keyLt a a := by
  rw [keyLt, keyCmp_lt_iff]
  omega

theorem keyLt_asymm {a b : T2OKey} (h : keyLt a b) : ¬ keyLt b a :=
  fun h2 => keyLt_irrefl a (keyLt_trans h h2)

/-! ### Lemmas about the B-tree model -/

theorem treeSet_mem {key a : T2OKey} {l : List T2OKey} :
    a ∈ treeSet key l ↔ a = key ∨ a ∈ l := by
  induction l with
  | nil => simp [treeSet]
  | cons k rest ih =>
    simp only [treeSet]
    rcases hc : timestamp2OffsetsKeyCmp key k with _ | _ | _
    · simp only [List.mem_cons]
      try tauto
    · have hk : key = k := keyCmp_eq_iff.mp hc
      subst hk
      simp only [List.mem_cons]
      tauto
    · simp only [List.mem_cons, ih]
      tauto

theorem treeSet_pairwise {key : T2OKey} {l : List T2OKey}
    (h : l.Pairwise keyLt) : (treeSet key l).Pairwise keyLt := by
  induction l with
  | nil => simp [treeSet]
  | cons k rest ih =>
    rw [List.pairwise_cons] at h
    obtain ⟨hk, hrest⟩ := h
    simp only [treeSet]
    rcases hc : timestamp2OffsetsKeyCmp key k with _ | _ | _
    · have hlt : keyLt key k := hc
      rw [List.pairwise_cons]
      refine ⟨?_, ?_⟩
      · intro b hb
        rcases List.mem_cons.mp hb with hb | hb
        · exact hb ▸ hlt
        · exact keyLt_trans hlt (hk b hb)
      · rw [List.pairwise_cons]
        exact ⟨hk, hrest⟩
    · have hkk : key = k := keyCmp_eq_iff.mp hc
      subst hkk
      rw [List.pairwise_cons]
      exact ⟨hk, hrest⟩
    · rw [List.pairwise_cons]
      refine ⟨?_, ih hrest⟩
      intro b hb
      rcases treeSet_mem.mp hb with hb | hb
      · subst hb
        exact keyCmp_gt_iff.mp hc
      · exact hk b hb

theorem treeDelete_isSome {key : T2OKey} {l : List T2OKey} :
    (treeDelete key l).isSome ↔ key ∈ l := by
  induction l with
  | nil => simp [treeDelete]
  | cons k rest ih =>
    simp only [treeDelete]
    by_cases hc : timestamp2OffsetsKeyCmp key k = .eq
    · have hkk : key = k := keyCmp_eq_iff.mp hc
      subst hkk
      simp [hc]
    · have hne : key ≠ k := fun h => hc (keyCmp_eq_iff.mpr h)
      simp [hc, hne, ih]

theorem treeDelete_sublist {key : T2OKey} {l l' : List T2OKey}
    (h : treeDelete key l = some l') : List.Sublist l' l := by
  induction l generalizing l' with
  | nil => simp [treeDelete] at h
  | cons k rest ih =>
    simp only [treeDelete] at h
    by_cases hc : timestamp2OffsetsKeyCmp key k = .eq
    · simp only [hc, if_true] at h
      injection h with h
      subst h
      exact List.sublist_cons_self k rest
    · simp only [hc, if_false] at h
      rcases ho : treeDelete key rest with _ | rest'
      · rw [ho] at h
        simp at h
      · rw [ho] at h
        simp only [Option.map_some'] at h
        injection h with h
        subst h
        exact (ih ho).cons₂ k

theorem treeDelete_pairwise {key : T2OKey} {l l' : List T2OKey}
    (hs : l.Pairwise keyLt) (h : treeDelete key l = some l') :
    l'.Pairwise keyLt :=
  List.Pairwise.sublist (treeDelete_sublist h) hs

theorem treeDelete_mem {key a : T2OKey} {l l' : List T2OKey}
    (hs : l.Pairwise keyLt) (h : treeDelete key l = some l') :
    (a ∈ l' ↔ a ∈ l ∧ a ≠ key) := by
  induction l generalizing l' with
  | nil => simp [treeDelete] at h
  | cons k rest ih =>
    rw [List.pairwise_cons] at hs
    obtain ⟨hk, hrest⟩ := hs
    simp only [treeDelete] at h
    by_cases hc : timestamp2OffsetsKeyCmp key k = .eq
    · have hkey : key = k := keyCmp_eq_iff.mp hc
      subst hkey
      simp only [hc, if_true] at h
      injection h with h
      subst h
      constructor
      · intro ha
        refine ⟨List.mem_cons_of_mem _ ha, ?_⟩
        intro hak
        subst hak
        exact keyLt_irrefl a (hk a ha)
      · rintro ⟨ha, hne⟩
        rcases List.mem_cons.mp ha with ha | ha
        · exact absurd ha hne
        · exact ha
    · simp only [hc, if_false] at h
      rcases ho : treeDelete key rest with _ | rest'
      · rw [ho] at h
        simp at h
      · rw [ho] at h
        simp only [Option.map_some'] at h
        injection h with h
        subst h
        have hkne : k ≠ key := fun hkk => hc (keyCmp_eq_iff.mpr hkk.symm)
        simp only [List.mem_cons, ih hrest ho]
        constructor
        · rintro (ha | ⟨ha, hne⟩)
          · exact ⟨Or.inl ha, ha ▸ hkne⟩
          · exact ⟨Or.inr ha, hne⟩
        · rintro ⟨ha | ha, hne⟩
          · exact Or.inl ha
          · exact Or.inr ⟨ha, hne⟩

/-! ### Lemmas about `seekNext` and `seekPrev` -/

theorem seekNext_eq_none {key : T2OKey} {l : List T2OKey} :
    seekNext key l = none ↔ ∀ a ∈ l, timestamp2OffsetsKeyCmp key a = .gt := by
  induction l with
  | nil => simp [seekNext]
  | cons k rest ih =>
    simp only [seekNext]
    by_cases hc : timestamp2OffsetsKeyCmp key k = .gt
    · simp [hc, ih]
    · simp [hc]

theorem seekNext_mem {key e : T2OKey} {l : List T2OKey}
    (h : seekNext key l = some e) : e ∈ l := by
  induction l with
  | nil => simp [seekNext] at h
  | cons k rest ih =>
    simp only [seekNext] at h
    by_cases hc : timestamp2OffsetsKeyCmp key k = .gt
    · simp only [hc, if_true] at h
      exact List.mem_cons_of_mem _ (ih h)
    · simp only [hc, if_false] at h
      injection h with h
      exact h ▸ List.mem_cons_self k rest

theorem seekNext_le {key e : T2OKey} {l : List T2OKey}
    (h : seekNext key l = some e) : timestamp2OffsetsKeyCmp key e ≠ .gt := by
  induction l with
  | nil => simp [seekNext] at h
  | cons k rest ih =>
    simp only [seekNext] at h
    by_cases hc : timestamp2OffsetsKeyCmp key k = .gt
    · simp only [hc, if_true] at h
      exact ih h
    · simp only [hc, if_false] at h
      injection h with h
      exact h ▸ hc

theorem seekNext_min {key e : T2OKey} {l : List T2OKey}
    (hs : l.Pairwise keyLt) (h : seekNext key l = some e) :
    ∀ a ∈ l, timestamp2OffsetsKeyCmp key a ≠ .gt → ¬ keyLt a e := by
  induction l with
  | nil => simp [seekNext] at h
  | cons k rest ih =>
    rw [List.pairwise_cons] at hs
    obtain ⟨hk, hrest⟩ := hs
    simp only [seekNext] at h
    by_cases hc : timestamp2OffsetsKeyCmp key k = .gt
    · simp only [hc, if_true] at h
      intro a ha hle
      rcases List.mem_cons.mp ha with ha | ha
      · exact absurd (ha ▸ hc) hle
      · exact ih hrest h a ha hle
    · simp only [hc, if_false] at h
      injection h with h
      subst h
      intro a ha _
      rcases List.mem_cons.mp ha with ha | ha
      · exact ha ▸ keyLt_irrefl _
      · exact keyLt_asymm (hk a ha)

theorem seekPrev_mem {key e : T2OKey} {l : List T2OKey}
    (h : seekPrev key l = some e) : e ∈ l := by
  induction l generalizing e with
  | nil => simp [seekPrev] at h
  | cons k rest ih =>
    simp only [seekPrev] at h
    rcases hc : timestamp2OffsetsKeyCmp k key with _ | _ | _ <;> rw [hc] at h
    · rcases ho : seekPrev key rest with _ | k2 <;> rw [ho] at h
      · injection h with h
        exact h ▸ List.mem_cons_self k rest
      · injection h with h
        subst h
        exact List.mem_cons_of_mem _ (ih ho)
    · injection h with h
      exact h ▸ List.mem_cons_self k rest
    · simp at h

theorem seekPrev_all_lt {key : T2OKey} {l : List T2OKey}
    (h : ∀ a ∈ l, timestamp2OffsetsKeyCmp a key = .lt) :
    seekPrev key l = l.getLast? := by
  induction l with
  | nil => simp [seekPrev]
  | cons k rest ih =>
    have hk : timestamp2OffsetsKeyCmp k key = .lt :=
      h k (List.mem_cons_self k rest)
    simp only [seekPrev, hk]
    have hrest : ∀ a ∈ rest, timestamp2OffsetsKeyCmp a key = .lt :=
      fun a ha => h a (List.mem_cons_of_mem _ ha)
    rw [ih hrest]
    cases rest with
    | nil => simp
    | cons r rs =>
      rw [List.getLast?_cons_cons]
      rcases ho : (r :: rs).getLast? with _ | e
      · have h2 : (r :: rs).getLast?.isSome = true :=
          List.getLast?_isSome.mpr (by simp)
        rw [ho] at h2
        simp at h2
      · simp

theorem getLast?_max {l : List T2OKey} {e : T2OKey}
    (hs : l.Pairwise keyLt) (h : l.getLast? = some e) :
    ∀ a ∈ l, a = e ∨ keyLt a e := by
  induction l with
  | nil => simp at h
  | cons k rest ih =>
    rw [List.pairwise_cons] at hs
    obtain ⟨hk, hrest⟩ := hs
    cases rest with
    | nil =>
      simp only [List.getLast?_singleton] at h
      injection h with h
      intro a ha
      rcases List.mem_cons.mp ha with ha | ha
      · exact Or.inl (ha.trans h)
      · simp at ha
    | cons r rs =>
      rw [List.getLast?_cons_cons] at h
      intro a ha
      rcases List.mem_cons.mp ha with ha | ha
      · subst ha
        have he : e ∈ r :: rs := List.mem_of_mem_getLast? h
        exact Or.inr (hk e he)
      · exact ih hrest h a ha

/-! ### Lemmas about the Go map model -/

theorem mapLookup_eq_none {k : Int} {l : List (Int × Int)} :
    mapLookup k l = none ↔ k ∉ l.map Prod.fst := by
  induction l with
  | nil => simp [mapLookup]
  | cons p rest ih =>
    simp only [mapLookup, List.map_cons, List.mem_cons]
    by_cases hp : p.1 = k
    · simp [hp]
    · have hp' : k ≠ p.1 := fun h => hp h.symm
      simp [hp, hp', ih]

theorem mapLookup_insert {k v k' : Int} {l : List (Int × Int)} :
    mapLookup k' (mapInsert k v l) =
      if k' = k then some v else mapLookup k' l := by
  induction l with
  | nil =>
    by_cases h : k' = k
    · simp [mapInsert, mapLookup, h]
    · have h2 : ¬ (k = k') := fun hh => h hh.symm
      simp [mapInsert, mapLookup, h, h2]
  | cons p rest ih =>
    by_cases h : k' = k
    · subst h
      by_cases hp : p.1 = k'
      · simp only [mapInsert]
        rw [if_pos hp]
        simp [mapLookup]
      · simp only [mapInsert]
        rw [if_neg hp]
        simp only [mapLookup]
        rw [if_neg hp]
        rw [ih]
        simp
    · by_cases hp : p.1 = k
      · have h2 : ¬ (k = k') := fun hh => h hh.symm
        have hpk : ¬ (p.1 = k') := by
          rw [hp]
          exact h2
        simp only [mapInsert]
        rw [if_pos hp]
        simp only [mapLookup]
        rw [if_neg h2, if_neg h, if_neg hpk]
      · by_cases hpk : p.1 = k'
        · simp only [mapInsert]
          rw [if_neg hp]
          simp only [mapLookup]
          rw [if_pos hpk, if_neg h, if_pos hpk]
        · simp only [mapInsert]
          rw [if_neg hp]
          simp only [mapLookup]
          rw [if_neg hpk, if_neg hpk, ih]

theorem mapErase_lookup {k k' : Int} {l : List (Int × Int)}
    (hnd : (l.map Prod.fst).Nodup) :
    mapLookup k' (mapErase k l) =
      if k' = k then none else mapLookup k' l := by
  induction l with
  | nil => by_cases h : k' = k <;> simp [mapErase, mapLookup, h]
  | cons p rest ih =>
    simp only [List.map_cons, List.nodup_cons] at hnd
    obtain ⟨hp1, hnd⟩ := hnd
    by_cases hp : p.1 = k
    · simp only [mapErase]
      rw [if_pos hp]
      by_cases h : k' = k
      · rw [if_pos h]
        rw [mapLookup_eq_none]
        intro hc
        rw [h, ← hp] at hc
        exact hp1 hc
      · rw [if_neg h]
        have hpk : ¬ (p.1 = k') := by
          rw [hp]
          exact fun hh => h hh.symm
        simp only [mapLookup]
        rw [if_neg hpk]
    · simp only [mapErase]
      rw [if_neg hp]
      by_cases h : k' = k
      · rw [if_pos h]
        simp only [mapLookup]
        have hpk : ¬ (p.1 = k') := fun hh => hp (hh.trans h)
        rw [if_neg hpk]
        rw [ih hnd, if_pos h]
      · rw [if_neg h]
        by_cases hpk : p.1 = k'
        · simp only [mapLookup]
          rw [if_pos hpk, if_pos hpk]
        · simp only [mapLookup]
          rw [if_neg hpk, if_neg hpk, ih hnd, if_neg h]

theorem mapErase_sublist {k : Int} {l : List (Int × Int)} :
    List.Sublist (mapErase k l) l := by
  induction l with
  | nil => simp [mapErase]
  | cons p rest ih =>
    simp only [mapErase]
    by_cases hp : p.1 = k
    · simp only [hp, if_true]
      exact List.sublist_cons_self p rest
    · simp only [hp, if_false]
      exact ih.cons₂ p

theorem mapErase_nodup {k : Int} {l : List (Int × Int)}
    (hnd : (l.map Prod.fst).Nodup) :
    ((mapErase k l).map Prod.fst).Nodup :=
  List.Nodup.sublist (mapErase_sublist.map Prod.fst) hnd

theorem mapErase_length {k : Int} {l : List (Int × Int)}
    (hmem : k ∈ l.map Prod.fst) :
    (mapErase k l).length + 1 = l.length := by
  induction l with
  | nil => simp at hmem
  | cons p rest ih =>
    simp only [List.map_cons, List.mem_cons] at hmem
    simp only [mapErase]
    by_cases hp : p.1 = k
    · simp [hp]
    · have hmem2 : k ∈ rest.map Prod.fst := by
        rcases hmem with h | h
        · exact absurd h.symm hp
        · exact h
      simp only [hp, if_false, List.length_cons]
      rw [← ih hmem2]

theorem mapInsert_keys_mem {k v a : Int} {l : List (Int × Int)} :
    a ∈ (mapInsert k v l).map Prod.fst ↔ a = k ∨ a ∈ l.map Prod.fst := by
  induction l with
  | nil => simp [mapInsert]
  | cons p rest ih =>
    simp only [mapInsert]
    by_cases hp : p.1 = k
    · rw [if_pos hp]
      simp only [List.map_cons, List.mem_cons, hp]
      tauto
    · rw [if_neg hp]
      simp only [List.map_cons, List.mem_cons, ih]
      tauto

theorem mapInsert_nodup {k v : Int} {l : List (Int × Int)}
    (hnd : (l.map Prod.fst).Nodup) :
    ((mapInsert k v l).map Prod.fst).Nodup := by
  induction l with
  | nil => simp [mapInsert]
  | cons p rest ih =>
    simp only [List.map_cons, List.nodup_cons] at hnd
    obtain ⟨hp1, hnd⟩ := hnd
    simp only [mapInsert]
    by_cases hp : p.1 = k
    · simp only [hp, if_true, List.map_cons, List.nodup_cons]
      exact ⟨hp ▸ hp1, hnd⟩
    · simp only [hp, if_false, List.map_cons, List.nodup_cons]
      refine ⟨?_, ih hnd⟩
      intro hc
      rcases mapInsert_keys_mem.mp hc with hc | hc
      · exact hp hc
      · exact hp1 hc

theorem mapInsert_length {k v : Int} {l : List (Int × Int)}
    (hnm : k ∉ l.map Prod.fst) :
    (mapInsert k v l).length = l.length + 1 := by
  induction l with
  | nil => simp [mapInsert]
  | cons p rest ih =>
    simp only [List.map_cons, List.mem_cons, not_or] at hnm
    obtain ⟨h1, h2⟩ := hnm
    have hp : ¬ (p.1 = k) := fun h => h1 h.symm
    simp only [mapInsert, hp, if_false, List.length_cons]
    rw [ih h2]

/-! ### C1: the `NearestOffset` policy -/

/-- The two-entry index state of spec §8: offsets `0 → 100ms` and
`1 → 500ms`, capacity 2 (the state reached in `TestTimestamp2Offset` after
two `Add` calls). -/
def exampleIndex8 : Timestamp2Offset :=
  { capacity := 2, lastOffset := 1,
    offset2Timestamp := [(0, 100), (1, 500)],
    timestamp2Offsets := [⟨100, 0⟩, ⟨500, 1⟩] }

theorem seekKey_gt_iff {t : Int} {a : T2OKey} (ha : 0 ≤ a.offset) :
    timestamp2OffsetsKeyCmp ⟨t, 0⟩ a = .gt ↔ a.timestamp < t := by
  rw [keyCmp_gt_iff, keyLt_iff]
  simp only
  omega

theorem seekKey_lt_iff {t : Int} {a : T2OKey} (ha : 0 ≤ a.offset) :
    keyLt a ⟨t, 0⟩ ↔ a.timestamp < t := by
  rw [keyLt_iff]
  simp only
  omega

/-- **C1.** For every index whose tree is sorted and holds only
non-negative offsets (every reachable index state), `NearestOffset t`
returns the offset of the earliest retained entry with timestamp ≥ `t`,
ties broken toward the smallest offset at that timestamp (the minimum in
`(timestamp, offset)` order among qualifying entries); if no such entry
exists, the offset of the greatest `(timestamp, offset)` retained entry,
whose timestamp is < `t`; if the index is empty, not-found.  In
particular, on the §8 state `{0 → 100ms, 1 → 500ms}`, a query at 250ms
returns offset 1 and a query at 600ms returns offset 1. -/
theorem nearestOffset_policy (m : Timestamp2Offset) (t : Int)
    (hs : m.timestamp2Offsets.Pairwise keyLt)
    (hnn : ∀ k ∈ m.timestamp2Offsets, 0 ≤ k.offset) :
    ((∃ k ∈ m.timestamp2Offsets, t ≤ k.timestamp) →
      ∃ k ∈ m.timestamp2Offsets, nearestOffset m t = (k.offset, true) ∧
        t ≤ k.timestamp ∧
        ∀ k' ∈ m.timestamp2Offsets, t ≤ k'.timestamp → ¬ keyLt k' k) ∧
    ((∀ k ∈ m.timestamp2Offsets, k.timestamp < t) →
      m.timestamp2Offsets ≠ [] →
      ∃ k ∈ m.timestamp2Offsets, nearestOffset m t = (k.offset, true) ∧
        k.timestamp < t ∧
        ∀ k' ∈ m.timestamp2Offsets, ¬ keyLt k k') ∧
    (m.timestamp2Offsets = [] → nearestOffset m t = (-1, false)) ∧
    (nearestOffset exampleIndex8 250 = (1, true) ∧
      nearestOffset exampleIndex8 600 = (1, true)) := by
  refine ⟨?_, ?_, ?_, by decide, by decide⟩
  · rintro ⟨k, hk, hkt⟩
    rcases he : seekNext ⟨t, 0⟩ m.timestamp2Offsets with _ | e
    · exfalso
      have hall := seekNext_eq_none.mp he k hk
      rw [seekKey_gt_iff (hnn k hk)] at hall
      omega
    · refine ⟨e, seekNext_mem he, ?_, ?_, ?_⟩
      · simp only [nearestOffset, he]
      · have hle := seekNext_le he
        rw [keyCmp_ne_gt_iff] at hle
        rcases hle with hle | hle
        · rw [keyLt_iff] at hle
          simp only at hle
          have := hnn e (seekNext_mem he)
          omega
        · rw [← hle]
      · intro k' hk' hk't
        apply seekNext_min hs he k' hk'
        intro hc
        rw [seekKey_gt_iff (hnn k' hk')] at hc
        omega
  · intro hall hne
    have hnone : seekNext ⟨t, 0⟩ m.timestamp2Offsets = none := by
      rw [seekNext_eq_none]
      intro a ha
      rw [seekKey_gt_iff (hnn a ha)]
      exact hall a ha
    have hprev : seekPrev ⟨t, 0⟩ m.timestamp2Offsets =
        m.timestamp2Offsets.getLast? := by
      apply seekPrev_all_lt
      intro a ha
      have := (seekKey_lt_iff (hnn a ha)).mpr (hall a ha)
      exact this
    rcases hg : m.timestamp2Offsets.getLast? with _ | e
    · exfalso
      have h2 : m.timestamp2Offsets.getLast?.isSome = true :=
        List.getLast?_isSome.mpr hne
      rw [hg] at h2
      simp at h2
    · have hmem : e ∈ m.timestamp2Offsets := List.mem_of_mem_getLast? hg
      refine ⟨e, hmem, ?_, hall e hmem, ?_⟩
      · simp only [nearestOffset, hnone, hprev, hg]
      · intro k' hk'
        rcases getLast?_max hs hg k' hk' with h | h
        · exact h ▸ keyLt_irrefl e
        · exact keyLt_asymm h
  · intro h
    simp only [nearestOffset, h, seekNext, seekPrev]

/-- Witness instantiating `nearestOffset_policy` at the §8 state and
query `t = 250`: the forward search finds the entry `(500, 1)`, the
earliest entry with timestamp ≥ 250. -/
theorem nearestOffset_policy_witness :
    ∃ k ∈ exampleIndex8.timestamp2Offsets,
      nearestOffset exampleIndex8 250 = (k.offset, true) ∧
        250 ≤ k.timestamp ∧
        ∀ k' ∈ exampleIndex8.timestamp2Offsets,
          250 ≤ k'.timestamp → ¬ keyLt k' k :=
  (nearestOffset_policy exampleIndex8 250 (by decide) (by decide)).1
    ⟨⟨500, 1⟩, by decide, by decide⟩

/-! ### C2: bounded retention under a run of `Add` calls -/

/-- `n` successive `Add` calls with the contiguous offsets
`s, s+1, …, s+n-1` and timestamps `ts s, …, ts (s+n-1)` (the timestamps are
arbitrary).  `none` if any call returned an error. -/
def addRun (m : Timestamp2Offset) (s : Int) (ts : Int → Int) :
    Nat → Option Timestamp2Offset
  | 0 => some m
  | n + 1 =>
    match addRun m s ts n with
    | none => none
    | some m' =>
      match add m' (s + (n : Int)) (ts (s + (n : Int))) with
      | (m'', none) => some m''
      | (_, some _) => none

/-- Full characterisation of the index state after `n` successful `Add`
calls of offsets `s … s+n-1` into a fresh index of capacity `C`: the
retained entries are exactly the most recent `min n C` contiguous offsets
`s+n-min n C … s+n-1`, in both internal structures, and the tree is
sorted. -/
structure RunState (C s : Int) (ts : Int → Int) (n : Nat)
    (m : Timestamp2Offset) : Prop where
  cap : m.capacity = C
  last : m.lastOffset = (if n = 0 then -1 else s + (n : Int) - 1)
  len : (m.offset2Timestamp.length : Int) = min (n : Int) C
  nodupKeys : (m.offset2Timestamp.map Prod.fst).Nodup
  look : ∀ off : Int,
    mapLookup off m.offset2Timestamp =
      if s + (n : Int) - min (n : Int) C ≤ off ∧ off < s + (n : Int) then
        some (ts off)
      else none
  tree : ∀ x : T2OKey, x ∈ m.timestamp2Offsets ↔
    ∃ off : Int, s + (n : Int) - min (n : Int) C ≤ off ∧
      off < s + (n : Int) ∧ x = ⟨ts off, off⟩
  sorted : m.timestamp2Offsets.Pairwise keyLt

theorem mapLookup_mem_of_some {k v : Int} {l : List (Int × Int)}
    (h : mapLookup k l = some v) : k ∈ l.map Prod.fst := by
  by_contra hc
  rw [← mapLookup_eq_none] at hc
  rw [h] at hc
  exact Option.noConfusion hc

theorem add_eq_of_empty {m : Timestamp2Offset} {offset timestamp : Int}
    (h0 : ¬ offset < 0) (hlen : (m.offset2Timestamp.length : Int) = 0) :
    add m offset timestamp =
      addEvictInsert { m with lastOffset := offset } offset timestamp
        (m.offset2Timestamp.length : Int) := by
  simp only [add, h0, if_false, hlen, if_true]

theorem add_eq_of_next {m : Timestamp2Offset} {offset timestamp : Int}
    (h0 : ¬ offset < 0) (hlen : ¬ (m.offset2Timestamp.length : Int) = 0)
    (hlast : m.lastOffset = offset - 1) :
    add m offset timestamp =
      addEvictInsert m offset timestamp (m.offset2Timestamp.length : Int) := by
  simp only [add, h0, if_false, hlen, hlast, if_true]
  try simp

theorem addEvictInsert_no_evict {m : Timestamp2Offset}
    {offset timestamp n : Int} (h : ¬ n = m.capacity) :
    addEvictInsert m offset timestamp n =
      ({ m with
          offset2Timestamp := mapInsert offset timestamp m.offset2Timestamp,
          timestamp2Offsets :=
            treeSet ⟨timestamp, offset⟩ m.timestamp2Offsets,
          lastOffset := offset },
       none) := by
  simp only [addEvictInsert, h, if_false]

theorem addEvictInsert_evict {m : Timestamp2Offset}
    {offset timestamp n oldTs : Int} {tree' : List T2OKey}
    (h : n = m.capacity)
    (hl : mapLookup (offset - m.capacity) m.offset2Timestamp = some oldTs)
    (hd : treeDelete ⟨oldTs, offset - m.capacity⟩ m.timestamp2Offsets =
      some tree') :
    addEvictInsert m offset timestamp n =
      ({ m with
          offset2Timestamp :=
            mapInsert offset timestamp
              (mapErase (offset - m.capacity) m.offset2Timestamp),
          timestamp2Offsets := treeSet ⟨timestamp, offset⟩ tree',
          lastOffset := offset },
       none) := by
  simp only [addEvictInsert, h, if_true, hl, hd]

theorem insert_step_look {ts : Int → Int} {l : List (Int × Int)} {lo o : Int}
    (hlo : lo ≤ o)
    (hlook : ∀ off : Int, mapLookup off l =
      if lo ≤ off ∧ off < o then some (ts off) else none) :
    ∀ off : Int, mapLookup off (mapInsert o (ts o) l) =
      if lo ≤ off ∧ off < o + 1 then some (ts off) else none := by
  intro off
  rw [mapLookup_insert]
  by_cases ho : off = o
  · subst ho
    rw [if_pos rfl, if_pos (by omega)]
  · rw [if_neg ho, hlook off]
    by_cases hin : lo ≤ off ∧ off < o
    · rw [if_pos hin, if_pos (by omega)]
    · rw [if_neg hin, if_neg (by omega)]

theorem insert_step_tree {ts : Int → Int} {tl : List T2OKey} {lo o : Int}
    (hlo : lo ≤ o)
    (htree : ∀ x : T2OKey, x ∈ tl ↔
      ∃ off : Int, lo ≤ off ∧ off < o ∧ x = ⟨ts off, off⟩) :
    ∀ x : T2OKey, x ∈ treeSet ⟨ts o, o⟩ tl ↔
      ∃ off : Int, lo ≤ off ∧ off < o + 1 ∧ x = ⟨ts off, off⟩ := by
  intro x
  rw [treeSet_mem, htree]
  constructor
  · rintro (rfl | ⟨off, h1, h2, rfl⟩)
    · exact ⟨o, hlo, by omega, rfl⟩
    · exact ⟨off, h1, by omega, rfl⟩
  · rintro ⟨off, h1, h2, rfl⟩
    by_cases ho : off = o
    · subst ho
      exact Or.inl rfl
    · exact Or.inr ⟨off, h1, by omega, rfl⟩

theorem insert_step_fresh {ts : Int → Int} {l : List (Int × Int)} {lo o : Int}
    (hlook : ∀ off : Int, mapLookup off l =
      if lo ≤ off ∧ off < o then some (ts off) else none) :
    o ∉ l.map Prod.fst := by
  rw [← mapLookup_eq_none, hlook o, if_neg (by omega)]

theorem erase_step_look {ts : Int → Int} {l : List (Int × Int)} {lo o : Int}
    (hnd : (l.map Prod.fst).Nodup)
    (hlook : ∀ off : Int, mapLookup off l =
      if lo ≤ off ∧ off < o then some (ts off) else none) :
    ∀ off : Int, mapLookup off (mapErase lo l) =
      if lo + 1 ≤ off ∧ off < o then some (ts off) else none := by
  intro off
  rw [mapErase_lookup hnd]
  by_cases ho : off = lo
  · subst ho
    rw [if_pos rfl, if_neg (by omega)]
  · rw [if_neg ho, hlook off]
    by_cases hin : lo ≤ off ∧ off < o
    · rw [if_pos hin, if_pos (by omega)]
    · rw [if_neg hin, if_neg (by omega)]

theorem delete_step_tree {ts : Int → Int} {tl tl' : List T2OKey} {lo o : Int}
    (hsorted : tl.Pairwise keyLt)
    (htree : ∀ x : T2OKey, x ∈ tl ↔
      ∃ off : Int, lo ≤ off ∧ off < o ∧ x = ⟨ts off, off⟩)
    (hd : treeDelete ⟨ts lo, lo⟩ tl = some tl') :
    ∀ x : T2OKey, x ∈ tl' ↔
      ∃ off : Int, lo + 1 ≤ off ∧ off < o ∧ x = ⟨ts off, off⟩ := by
  intro x
  rw [treeDelete_mem hsorted hd, htree]
  constructor
  · rintro ⟨⟨off, h1, h2, rfl⟩, hne⟩
    by_cases ho : off = lo
    · subst ho
      exact absurd rfl hne
    · exact ⟨off, by omega, h2, rfl⟩
  · rintro ⟨off, h1, h2, rfl⟩
    refine ⟨⟨off, by omega, h2, rfl⟩, ?_⟩
    intro hc
    have hoff : off = lo := congrArg T2OKey.offset hc
    omega

/-- One successful `Add` step preserves the run characterisation: from the
state after `n` adds, adding offset `s+n` succeeds and yields the state
after `n+1` adds. -/
theorem runState_step {C s : Int} {ts : Int → Int} {n : Nat}
    {m : Timestamp2Offset} (hC : 0 < C) (hs : 0 ≤ s)
    (h : RunState C s ts n m) :
    (add m (s + (n : Int)) (ts (s + (n : Int)))).2 = none ∧
      RunState C s ts (n + 1) (add m (s + (n : Int)) (ts (s + (n : Int)))).1 := by
  have h0 : ¬ (s + (n : Int)) < 0 := by omega
  by_cases hn : n = 0
  · subst hn
    have hlen : (m.offset2Timestamp.length : Int) = 0 := by
      have hl := h.len
      omega
    rw [add_eq_of_empty h0 hlen, hlen]
    have hne : ¬ (0 : Int) =
        ({ m with lastOffset := s + ((0 : Nat) : Int) } :
          Timestamp2Offset).capacity := by
      simp only [h.cap]
      omega
    rw [addEvictInsert_no_evict hne]
    refine ⟨rfl, ?_⟩
    have hlook0 : ∀ off : Int,
        mapLookup off m.offset2Timestamp =
          if s + ((0 : Nat) : Int) ≤ off ∧ off < s + ((0 : Nat) : Int) then
            some (ts off)
          else none := by
      intro off
      have hl := h.look off
      simp only [Nat.cast_zero] at hl ⊢
      rw [hl]
      by_cases hin : s + 0 - min 0 C ≤ off ∧ off < s + 0
      · omega
      · rw [if_neg hin, if_neg (by omega)]
    have htree0 : ∀ x : T2OKey, x ∈ m.timestamp2Offsets ↔
        ∃ off : Int, s + ((0 : Nat) : Int) ≤ off ∧
          off < s + ((0 : Nat) : Int) ∧ x = ⟨ts off, off⟩ := by
      intro x
      rw [h.tree x]
      constructor
      · rintro ⟨off, h1, h2, h3⟩
        exact absurd h1 (by omega)
      · rintro ⟨off, h1, h2, h3⟩
        exact absurd h1 (by omega)
    refine ⟨?_, ?_, ?_, ?_, ?_, ?_, ?_⟩
    · simpa using h.cap
    · simp
      try omega
    · have hfresh := insert_step_fresh hlook0
      have hl2 := mapInsert_length (k := s + ((0 : Nat) : Int))
        (v := ts (s + ((0 : Nat) : Int))) hfresh
      simp only at hl2 ⊢
      rw [hl2]
      push_cast
      omega
    · simpa using mapInsert_nodup h.nodupKeys
    · intro off
      have hl3 := insert_step_look (le_refl (s + ((0 : Nat) : Int)))
        hlook0 off
      simp only at hl3 ⊢
      rw [hl3]
      by_cases hin : s + ((0 : Nat) : Int) ≤ off ∧ off < s + ((0 : Nat) : Int) + 1
      · rw [if_pos hin, if_pos (by push_cast; omega)]
      · rw [if_neg hin, if_neg (by push_cast; omega)]
    · intro x
      have ht2 := insert_step_tree (le_refl (s + ((0 : Nat) : Int))) htree0 x
      simp only at ht2 ⊢
      rw [ht2]
      constructor
      · rintro ⟨off, h1, h2, h3⟩
        exact ⟨off, by push_cast; omega, by push_cast; omega, h3⟩
      · rintro ⟨off, h1, h2, h3⟩
        exact ⟨off, by push_cast at h1 ⊢; omega, by push_cast at h2 ⊢; omega, h3⟩
    · simpa using treeSet_pairwise h.sorted
  · have hlen0 : ¬ (m.offset2Timestamp.length : Int) = 0 := by
      have hl := h.len
      omega
    have hlast : m.lastOffset = (s + (n : Int)) - 1 := by
      rw [h.last, if_neg hn]
      try ring
    rw [add_eq_of_next h0 hlen0 hlast]
    have hlookn : ∀ off : Int,
        mapLookup off m.offset2Timestamp =
          if s + (n : Int) - min (n : Int) C ≤ off ∧ off < s + (n : Int) then
            some (ts off)
          else none := h.look
    by_cases hcap : (n : Int) < C
    · -- not yet at capacity: no eviction
      have hmin : min (n : Int) C = (n : Int) := by omega
      have hne : ¬ (m.offset2Timestamp.length : Int) = m.capacity := by
        rw [h.len, h.cap]
        omega
      rw [addEvictInsert_no_evict hne]
      refine ⟨rfl, ?_⟩
      have hlook1 : ∀ off : Int,
          mapLookup off m.offset2Timestamp =
            if s ≤ off ∧ off < s + (n : Int) then some (ts off) else none := by
        intro off
        rw [hlookn off]
        by_cases hin : s + (n : Int) - min (n : Int) C ≤ off ∧ off < s + (n : Int)
        · rw [if_pos hin, if_pos (by omega)]
        · rw [if_neg hin, if_neg (by omega)]
      have htree1 : ∀ x : T2OKey, x ∈ m.timestamp2Offsets ↔
          ∃ off : Int, s ≤ off ∧ off < s + (n : Int) ∧ x = ⟨ts off, off⟩ := by
        intro x
        rw [h.tree x]
        constructor
        · rintro ⟨off, h1, h2, h3⟩
          exact ⟨off, by omega, h2, h3⟩
        · rintro ⟨off, h1, h2, h3⟩
          exact ⟨off, by omega, h2, h3⟩
      have hlo : s ≤ s + (n : Int) := by omega
      refine ⟨?_, ?_, ?_, ?_, ?_, ?_, ?_⟩
      · simpa using h.cap
      · simp
        push_cast
        ring
      · have hfresh := insert_step_fresh hlook1
        have hl2 := mapInsert_length (k := s + (n : Int))
          (v := ts (s + (n : Int))) hfresh
        simp only at hl2 ⊢
        rw [hl2]
        push_cast
        rw [h.len]
        omega
      · simpa using mapInsert_nodup h.nodupKeys
      · intro off
        have hl3 := insert_step_look hlo hlook1 off
        simp only at hl3 ⊢
        rw [hl3]
        by_cases hin : s ≤ off ∧ off < s + (n : Int) + 1
        · rw [if_pos hin, if_pos (by push_cast; omega)]
        · rw [if_neg hin, if_neg (by push_cast; omega)]
      · intro x
        have ht2 := insert_step_tree hlo htree1 x
        simp only at ht2 ⊢
        rw [ht2]
        constructor
        · rintro ⟨off, h1, h2, h3⟩
          exact ⟨off, by push_cast; omega, by push_cast at h2 ⊢; omega, h3⟩
        · rintro ⟨off, h1, h2, h3⟩
          exact ⟨off, by push_cast at h1 ⊢; omega, by push_cast at h2 ⊢; omega, h3⟩
      · simpa using treeSet_pairwise h.sorted
    · -- at capacity: evict offset s+n−C, then insert s+n
      have hmin : min (n : Int) C = C := by omega
      have hCn : C ≤ (n : Int) := by omega
      have heq : (m.offset2Timestamp.length : Int) = m.capacity := by
        rw [h.len, h.cap]
        omega
      have hlo : s + (n : Int) - C = (s + (n : Int)) - m.capacity := by
        rw [h.cap]
      have hlook2 : ∀ off : Int,
          mapLookup off m.offset2Timestamp =
            if s + (n : Int) - C ≤ off ∧ off < s + (n : Int) then
              some (ts off)
            else none := by
        intro off
        rw [hlookn off, hmin]
      have htree2 : ∀ x : T2OKey, x ∈ m.timestamp2Offsets ↔
          ∃ off : Int, s + (n : Int) - C ≤ off ∧ off < s + (n : Int) ∧
            x = ⟨ts off, off⟩ := by
        intro x
        rw [h.tree x, hmin]
      have hl : mapLookup ((s + (n : Int)) - m.capacity) m.offset2Timestamp =
          some (ts (s + (n : Int) - C)) := by
        rw [← hlo, hlook2, if_pos (by omega)]
      have hkmem : (⟨ts (s + (n : Int) - C), s + (n : Int) - C⟩ : T2OKey) ∈
          m.timestamp2Offsets :=
        (htree2 _).mpr ⟨s + (n : Int) - C, le_refl _, by omega, rfl⟩
      rcases hd : treeDelete ⟨ts (s + (n : Int) - C), s + (n : Int) - C⟩
          m.timestamp2Offsets with _ | tree'
      · exfalso
        have hx := treeDelete_isSome.mpr hkmem
        rw [hd] at hx
        exact Bool.noConfusion hx
      · have hd2 : treeDelete
            ⟨ts (s + (n : Int) - C), (s + (n : Int)) - m.capacity⟩
            m.timestamp2Offsets = some tree' := by
          rw [← hlo]
          exact hd
        rw [addEvictInsert_evict heq hl hd2]
        refine ⟨rfl, ?_⟩
        have hlook3 := erase_step_look h.nodupKeys hlook2
        have hlook4 : ∀ off : Int,
            mapLookup off (mapErase (s + (n : Int) - C) m.offset2Timestamp) =
              if s + (n : Int) - C + 1 ≤ off ∧ off < s + (n : Int) then
                some (ts off)
              else none := hlook3
        have htree3 := delete_step_tree h.sorted htree2 hd
        have hnd3 : ((mapErase (s + (n : Int) - C)
            m.offset2Timestamp).map Prod.fst).Nodup :=
          mapErase_nodup h.nodupKeys
        have hsorted3 : tree'.Pairwise keyLt :=
          treeDelete_pairwise h.sorted hd
        have hlo2 : s + (n : Int) - C + 1 ≤ s + (n : Int) := by omega
        have hmemold : (s + (n : Int) - C) ∈
            m.offset2Timestamp.map Prod.fst :=
          mapLookup_mem_of_some (by rw [hlook2]; rw [if_pos (by omega)])
        have hlenerase := mapErase_length hmemold
        refine ⟨?_, ?_, ?_, ?_, ?_, ?_, ?_⟩
        · simpa using h.cap
        · simp
          push_cast
          ring
        · have hfresh := insert_step_fresh hlook4
          have hl2 := mapInsert_length (k := s + (n : Int))
            (v := ts (s + (n : Int))) hfresh
          simp only [← hlo] at hl2 ⊢
          rw [hl2]
          have hle := h.len
          push_cast
          omega
        · have hx := mapInsert_nodup (k := s + (n : Int))
            (v := ts (s + (n : Int))) hnd3
          simp only [← hlo] at hx ⊢
          exact hx
        · intro off
          have hl3 := insert_step_look hlo2 hlook4 off
          simp only [← hlo] at hl3 ⊢
          rw [hl3]
          by_cases hin : s + (n : Int) - C + 1 ≤ off ∧ off < s + (n : Int) + 1
          · rw [if_pos hin, if_pos (by push_cast; omega)]
          · rw [if_neg hin, if_neg (by push_cast; omega)]
        · intro x
          have ht2 := insert_step_tree hlo2 htree3 x
          simp only [← hlo] at ht2 ⊢
          rw [ht2]
          constructor
          · rintro ⟨off, h1, h2, h3⟩
            exact ⟨off, by push_cast; omega, by push_cast at h2 ⊢; omega, h3⟩
          · rintro ⟨off, h1, h2, h3⟩
            exact ⟨off, by push_cast at h1 ⊢; omega,
              by push_cast at h2 ⊢; omega, h3⟩
        · simpa using treeSet_pairwise hsorted3

/-- A fresh index satisfies the run characterisation at `n = 0`. -/
theorem runState_zero {C s : Int} {ts : Int → Int} {m0 : Timestamp2Offset}
    (hC : 0 < C) (hnew : NewTimestamp2Offset C = some m0) :
    RunState C s ts 0 m0 := by
  have hle : ¬ C ≤ 0 := by omega
  simp only [NewTimestamp2Offset, hle, if_false] at hnew
  injection hnew with hnew
  subst hnew
  refine ⟨rfl, by simp, by simp; omega, by simp, ?_, ?_, by simp⟩
  · intro off
    simp only [mapLookup]
    rw [if_neg (by omega)]
  · intro x
    simp only [List.not_mem_nil, false_iff]
    rintro ⟨off, h1, h2, h3⟩
    omega

/-- After `N` successful adds into a fresh index, the run characterisation
holds. -/
theorem addRun_runState {C s : Int} {ts : Int → Int} {N : Nat}
    {m0 m' : Timestamp2Offset} (hC : 0 < C) (hs : 0 ≤ s)
    (hnew : NewTimestamp2Offset C = some m0)
    (h : addRun m0 s ts N = some m') :
    RunState C s ts N m' := by
  induction N generalizing m' with
  | zero =>
    simp only [addRun] at h
    injection h with h
    subst h
    exact runState_zero hC hnew
  | succ n ih =>
    simp only [addRun] at h
    rcases hr : addRun m0 s ts n with _ | mn
    · rw [hr] at h
      exact Option.noConfusion h
    · rw [hr] at h
      have hst := runState_step hC hs (ih hr)
      rcases hadd : add mn (s + (n : Int)) (ts (s + (n : Int))) with ⟨m'', e⟩
      have h2 : (match add mn (s + (n : Int)) (ts (s + (n : Int))) with
          | (m'', none) => some m''
          | (_, some _) => none) = some m' := h
      rw [hadd] at h2 hst
      obtain ⟨he, hrs⟩ := hst
      have he2 : e = none := he
      subst he2
      have hrs2 : RunState C s ts (n + 1) m'' := hrs
      have h3 : some m'' = some m' := h2
      injection h3 with h3
      subst h3
      exact hrs2

/-- The concrete run used to witness C2: timestamps `100·o`. -/
def c2Timestamps (o : Int) : Int := 100 * o

/-- The fresh capacity-2 index (result of `NewTimestamp2Offset(2)`). -/
def c2Index0 : Timestamp2Offset :=
  { capacity := 2, lastOffset := -1,
    offset2Timestamp := [], timestamp2Offsets := [] }

/-- The index after adding offsets 0, 1, 2 with timestamps `100·o` into
`c2Index0`: offsets 1 and 2 are retained, offset 0 was evicted. -/
def c2Index3 : Timestamp2Offset :=
  { capacity := 2, lastOffset := 2,
    offset2Timestamp := [(1, 100), (2, 200)],
    timestamp2Offsets := [⟨100, 1⟩, ⟨200, 2⟩] }

/-- **C2.** For every successful run of `Add` calls (offsets
`s, s+1, …, s+N-1`, arbitrary timestamps) on a fresh index of capacity
`C > 0`: (1) the index retains exactly the most recent `min N C`
contiguous offsets; (2) once at capacity (`C ≤ n` offsets added), the
`(n+1)`-st add retains exactly the previous offsets minus `s+n−C` plus the
new offset `s+n` — it evicts exactly the entry for `(new offset) − C`;
(3) when `N > C`, `NearestOffset` finds an entry for every query
timestamp and never returns an offset below `s + N − C`. -/
theorem add_bounded_retention (C s : Int) (ts : Int → Int) (N : Nat)
    (m0 m' : Timestamp2Offset) (hC : 0 < C) (hs : 0 ≤ s)
    (hnew : NewTimestamp2Offset C = some m0)
    (hrun : addRun m0 s ts N = some m') :
    ((∀ off : Int, (mapLookup off m'.offset2Timestamp).isSome ↔
        (s + (N : Int) - min (N : Int) C ≤ off ∧ off < s + (N : Int))) ∧
      (∀ (n : Nat) (mn mn1 : Timestamp2Offset), C ≤ (n : Int) →
        addRun m0 s ts n = some mn → addRun m0 s ts (n + 1) = some mn1 →
        ∀ off : Int, (mapLookup off mn1.offset2Timestamp).isSome ↔
          (off = s + (n : Int) ∨
            ((mapLookup off mn.offset2Timestamp).isSome ∧
              off ≠ s + (n : Int) - C))) ∧
      (C < (N : Int) → ∀ t : Int,
        s + (N : Int) - C ≤ (nearestOffset m' t).1 ∧
          (nearestOffset m' t).2 = true)) := by
  have hrs := addRun_runState hC hs hnew hrun
  refine ⟨?_, ?_, ?_⟩
  · intro off
    rw [hrs.look off]
    by_cases hin : s + (N : Int) - min (N : Int) C ≤ off ∧ off < s + (N : Int)
    · rw [if_pos hin]
      exact ⟨fun _ => hin, fun _ => rfl⟩
    · rw [if_neg hin]
      constructor
      · intro hx
        exact absurd hx (by simp)
      · intro hx
        exact absurd hx hin
  · intro n mn mn1 hCn hn hn1
    have hrsn := addRun_runState hC hs hnew hn
    have hrsn1 := addRun_runState hC hs hnew hn1
    intro off
    rw [hrsn.look off, hrsn1.look off]
    have hminn : min (n : Int) C = C := by omega
    have hminn1 : min ((n + 1 : Nat) : Int) C = C := by push_cast; omega
    rw [hminn, hminn1]
    by_cases hin1 : s + ((n + 1 : Nat) : Int) - C ≤ off ∧
        off < s + ((n + 1 : Nat) : Int)
    · rw [if_pos hin1]
      push_cast at hin1
      by_cases hin : s + (n : Int) - C ≤ off ∧ off < s + (n : Int)
      · rw [if_pos hin]
        constructor
        · intro _
          by_cases ho : off = s + (n : Int)
          · exact Or.inl ho
          · exact Or.inr ⟨rfl, by omega⟩
        · intro _
          rfl
      · rw [if_neg hin]
        constructor
        · intro _
          left
          omega
        · intro _
          rfl
    · rw [if_neg hin1]
      push_cast at hin1
      by_cases hin : s + (n : Int) - C ≤ off ∧ off < s + (n : Int)
      · rw [if_pos hin]
        constructor
        · intro hx
          exact absurd hx (by simp)
        · rintro (ho | ⟨_, ho⟩)
          · exfalso
            omega
          · exfalso
            omega
      · rw [if_neg hin]
        constructor
        · intro hx
          exact absurd hx (by simp)
        · rintro (ho | ⟨hx, _⟩)
          · exfalso
            omega
          · exact absurd hx (by simp)
  · intro hCN t
    have hmin : min (N : Int) C = C := by omega
    have hmem : (⟨ts (s + (N : Int) - 1), s + (N : Int) - 1⟩ : T2OKey) ∈
        m'.timestamp2Offsets :=
      (hrs.tree _).mpr ⟨s + (N : Int) - 1, by omega, by omega, rfl⟩
    have hoff_of_mem : ∀ x ∈ m'.timestamp2Offsets,
        s + (N : Int) - C ≤ x.offset := by
      intro x hx
      rcases (hrs.tree x).mp hx with ⟨off, h1, h2, rfl⟩
      simpa using by omega
    rcases he : seekNext ⟨t, 0⟩ m'.timestamp2Offsets with _ | e
    · have hall : ∀ a ∈ m'.timestamp2Offsets,
          timestamp2OffsetsKeyCmp a ⟨t, 0⟩ = .lt := by
        intro a ha
        exact keyCmp_gt_iff.mp (seekNext_eq_none.mp he a ha)
      have hprev := seekPrev_all_lt hall
      rcases hg : m'.timestamp2Offsets.getLast? with _ | e2
      · exfalso
        have h2 : m'.timestamp2Offsets.getLast?.isSome = true :=
          List.getLast?_isSome.mpr (List.ne_nil_of_mem hmem)
        rw [hg] at h2
        exact Bool.noConfusion h2
      · have hres : nearestOffset m' t = (e2.offset, true) := by
          simp only [nearestOffset, he, hprev, hg]
        rw [hres]
        exact ⟨hoff_of_mem e2 (List.mem_of_mem_getLast? hg), rfl⟩
    · have hres : nearestOffset m' t = (e.offset, true) := by
        simp only [nearestOffset, he]
      rw [hres]
      exact ⟨hoff_of_mem e (seekNext_mem he), rfl⟩

/-- Witness instantiating `add_bounded_retention` on the concrete run of
offsets 0,1,2 with timestamps `100·o` into a fresh capacity-2 index:
offset 0 is no longer retained. -/
theorem add_bounded_retention_witness :
    (mapLookup 0 c2Index3.offset2Timestamp).isSome ↔
      (0 + ((3 : Nat) : Int) - min ((3 : Nat) : Int) 2 ≤ 0 ∧
        0 < 0 + ((3 : Nat) : Int)) :=
  (add_bounded_retention 2 0 c2Timestamps 3 c2Index0 c2Index3
    (by decide) (by decide) (by decide) (by decide)).1 0

/-! ### C3 and C9: `Add` error conditions and atomicity on failure -/

theorem add_neg {m : Timestamp2Offset} {offset timestamp : Int}
    (h : offset < 0) :
    add m offset timestamp = (m, some .negativeOffset) := by
  simp only [add, h, if_true]

theorem add_gap {m : Timestamp2Offset} {offset timestamp : Int}
    (h0 : ¬ offset < 0) (hlen : ¬ (m.offset2Timestamp.length : Int) = 0)
    (hlast : m.lastOffset ≠ offset - 1) :
    add m offset timestamp =
      (m, some (.outOfOrder offset m.lastOffset)) := by
  simp only [add, h0, if_false, hlen, hlast, if_true]
  simp [hlast]

theorem addEvictInsert_missing_map {m : Timestamp2Offset}
    {offset timestamp n : Int} (h : n = m.capacity)
    (hl : mapLookup (offset - m.capacity) m.offset2Timestamp = none) :
    addEvictInsert m offset timestamp n =
      (m, some (.corruptMissingOffset (offset - m.capacity))) := by
  simp only [addEvictInsert, h, if_true, hl]

theorem addEvictInsert_missing_tree {m : Timestamp2Offset}
    {offset timestamp n oldTs : Int} (h : n = m.capacity)
    (hl : mapLookup (offset - m.capacity) m.offset2Timestamp = some oldTs)
    (hd : treeDelete ⟨oldTs, offset - m.capacity⟩ m.timestamp2Offsets =
      none) :
    addEvictInsert m offset timestamp n =
      (m, some (.corruptMissingTree oldTs (offset - m.capacity))) := by
  simp only [addEvictInsert, h, if_true, hl, hd]

theorem length_ne_zero_iff {m : Timestamp2Offset} :
    m.offset2Timestamp ≠ [] ↔ ¬ (m.offset2Timestamp.length : Int) = 0 := by
  rw [not_iff_not]
  constructor
  · intro h
    rw [h]
    simp
  · intro h
    have : m.offset2Timestamp.length = 0 := by omega
    exact List.length_eq_zero.mp this

/-- **C3.** `Add` fails with an out-of-order error when the offset is
negative, or when the index is non-empty and the offset is not exactly one
more than the last accepted offset; a call on an empty index accepts any
non-negative offset and establishes it as the baseline (so the very first
call sets the baseline, and every later gap or repeat is rejected); and
when the index holds `capacity` entries, `Add` fails with a corrupt-state
error if the entry for `offset − capacity` to evict is absent from the
offset-to-timestamp map, or present there but absent from the ordered
`(timestamp, offset)` structure. -/
theorem add_error_conditions (m : Timestamp2Offset)
    (offset timestamp : Int) :
    (offset < 0 →
      add m offset timestamp = (m, some .negativeOffset) ∧
        AddError.negativeOffset.isOutOfOrder = true) ∧
    (0 ≤ offset → m.offset2Timestamp ≠ [] →
      m.lastOffset ≠ offset - 1 →
      add m offset timestamp =
        (m, some (.outOfOrder offset m.lastOffset)) ∧
        (AddError.outOfOrder offset m.lastOffset).isOutOfOrder = true) ∧
    (0 ≤ offset → m.offset2Timestamp = [] → 0 < m.capacity →
      (add m offset timestamp).2 = none ∧
        (add m offset timestamp).1.lastOffset = offset) ∧
    (0 ≤ offset → m.lastOffset = offset - 1 →
      (m.offset2Timestamp.length : Int) = m.capacity →
      m.offset2Timestamp ≠ [] →
      mapLookup (offset - m.capacity) m.offset2Timestamp = none →
      add m offset timestamp =
        (m, some (.corruptMissingOffset (offset - m.capacity))) ∧
        (AddError.corruptMissingOffset
          (offset - m.capacity)).isCorruptState = true) ∧
    (∀ oldTs : Int, 0 ≤ offset → m.lastOffset = offset - 1 →
      (m.offset2Timestamp.length : Int) = m.capacity →
      m.offset2Timestamp ≠ [] →
      mapLookup (offset - m.capacity) m.offset2Timestamp = some oldTs →
      treeDelete ⟨oldTs, offset - m.capacity⟩ m.timestamp2Offsets = none →
      add m offset timestamp =
        (m, some (.corruptMissingTree oldTs (offset - m.capacity))) ∧
        (AddError.corruptMissingTree oldTs
          (offset - m.capacity)).isCorruptState = true) := by
  refine ⟨?_, ?_, ?_, ?_, ?_⟩
  · intro h
    exact ⟨add_neg h, rfl⟩
  · intro h0 hne hlast
    exact ⟨add_gap (by omega) (length_ne_zero_iff.mp hne) hlast, rfl⟩
  · intro h0 hemp hcap
    have hlen : (m.offset2Timestamp.length : Int) = 0 := by
      rw [hemp]
      simp
    rw [add_eq_of_empty (by omega) hlen, hlen]
    have hne : ¬ (0 : Int) =
        ({ m with lastOffset := offset } : Timestamp2Offset).capacity := by
      simp only
      omega
    rw [addEvictInsert_no_evict hne]
    exact ⟨rfl, rfl⟩
  · intro h0 hlast hcap hne hmiss
    rw [add_eq_of_next (by omega) (length_ne_zero_iff.mp hne) hlast]
    exact ⟨addEvictInsert_missing_map hcap hmiss, rfl⟩
  · intro oldTs h0 hlast hcap hne hsome hdel
    rw [add_eq_of_next (by omega) (length_ne_zero_iff.mp hne) hlast]
    exact ⟨addEvictInsert_missing_tree hcap hsome hdel, rfl⟩

/-- Witness instantiating `add_error_conditions`: on the two-entry §8
state, adding offset 5 (last accepted was 1) is rejected as out of order
and adding offset −1 is rejected as negative. -/
theorem add_error_conditions_witness :
    (add exampleIndex8 (-1) 0 =
        (exampleIndex8, some .negativeOffset) ∧
      AddError.negativeOffset.isOutOfOrder = true) ∧
    (add exampleIndex8 5 0 =
        (exampleIndex8, some (.outOfOrder 5 exampleIndex8.lastOffset)) ∧
      (AddError.outOfOrder 5 exampleIndex8.lastOffset).isOutOfOrder =
        true) :=
  ⟨(add_error_conditions exampleIndex8 (-1) 0).1 (by decide),
    (add_error_conditions exampleIndex8 5 0).2.1 (by decide) (by decide)
      (by decide)⟩

/-- **C9.** `Add` is atomic on failure: for every index state with the
constructor's positive capacity, a call that returns an error leaves the
receiver — `lastOffset`, the offset-to-timestamp map and the ordered
`(timestamp, offset)` structure — exactly as it was. -/
theorem add_atomic_on_failure (m : Timestamp2Offset)
    (offset timestamp : Int) (hcap : 0 < m.capacity) (e : AddError)
    (herr : (add m offset timestamp).2 = some e) :
    (add m offset timestamp).1 = m := by
  by_cases hneg : offset < 0
  · rw [add_neg hneg]
  · by_cases hlen : (m.offset2Timestamp.length : Int) = 0
    · exfalso
      rw [add_eq_of_empty hneg hlen, hlen] at herr
      have hne : ¬ (0 : Int) =
          ({ m with lastOffset := offset } : Timestamp2Offset).capacity := by
        simp only
        omega
      rw [addEvictInsert_no_evict hne] at herr
      exact Option.noConfusion herr
    · by_cases hlast : m.lastOffset = offset - 1
      · rw [add_eq_of_next hneg hlen hlast] at herr ⊢
        by_cases hat : (m.offset2Timestamp.length : Int) = m.capacity
        · rcases hl : mapLookup (offset - m.capacity) m.offset2Timestamp
            with _ | oldTs
          · rw [addEvictInsert_missing_map hat hl]
          · rcases hd : treeDelete ⟨oldTs, offset - m.capacity⟩
                m.timestamp2Offsets with _ | tree'
            · rw [addEvictInsert_missing_tree hat hl hd]
            · exfalso
              rw [addEvictInsert_evict hat hl hd] at herr
              exact Option.noConfusion herr
        · exfalso
          rw [addEvictInsert_no_evict (fun hx => hat hx)] at herr
          exact Option.noConfusion herr
      · rw [add_gap hneg hlen hlast]

/-- Witness instantiating `add_atomic_on_failure`: the out-of-order call
`Add(5, 0)` on the §8 state leaves the state untouched. -/
theorem add_atomic_on_failure_witness :
    (add exampleIndex8 5 0).1 = exampleIndex8 :=
  add_atomic_on_failure exampleIndex8 5 0 (by decide)
    (.outOfOrder 5 1) (by decide)

/-! ### C5, C6, C10: the ingestion pipeline
(`dumpRecordProcessor.ProcessRecords` in `record_processor.go`) -/

/-- JSON values: the decoding target of Go's `encoding/json` into
`map[string]any` / `any`. -/
inductive Json where
  | null
  | jsonBool (b : Bool)
  | num (n : Int)
  | str (s : String)
  | arr (elems : List Json)
  | obj (fields : List (String × Json))

mutual

/-- Model of `json.Marshal` on a value produced by `json.Unmarshal`
(which cannot fail): the canonical wire form.  String escaping is not
modelled; the claims only compare re-encoded payloads produced by this
same function. -/
def jsonMarshal : Json → String
  | .null => "null"
  | .jsonBool true => "true"
  | .jsonBool false => "false"
  | .num n => toString n
  | .str s => "\"" ++ s ++ "\""
  | .arr elems => "[" ++ jsonMarshalList elems ++ "]"
  | .obj fields => "\x7b" ++ jsonMarshalFields fields ++ "\x7d"

def jsonMarshalList : List Json → String
  | [] => ""
  | [x] => jsonMarshal x
  | x :: y :: rest => jsonMarshal x ++ "," ++ jsonMarshalList (y :: rest)

def jsonMarshalFields : List (String × Json) → String
  | [] => ""
  | [f] => "\"" ++ f.1 ++ "\":" ++ jsonMarshal f.2
  | f :: g :: rest =>
    "\"" ++ f.1 ++ "\":" ++ jsonMarshal f.2 ++ "," ++
      jsonMarshalFields (g :: rest)

end

/-- Go map lookup `awsEvent[key]` on the decoded JSON object. -/
def lookupField (key : String) : List (String × Json) → Option Json
  | [] => none
  | f :: rest => if f.1 = key then some f.2 else lookupField key rest

/-- A record delivered by the stream-consumption subsystem (`kc.Record`):
`data` is the result of `json.Unmarshal(v.Data, &awsEvent)` — the decoded
object's fields, or `none` when the body does not decode as a JSON
object — and the record's sequence number. -/
structure KclRecord where
  data : Option (List (String × Json))
  sequenceNumber : String

/-- The state `ProcessRecords` touches: the route's `memlog.Log`
(modelled as the list of written entries; `Write` appends, assigning
offsets `0, 1, 2, …`, so a write's offset is the length before the
append), the route's `Timestamp2Offset`, and the sequence numbers
checkpointed so far (each `Checkpointer.Checkpoint` call appends one). -/
structure ProcState where
  log : List String
  t2o : Timestamp2Offset
  checkpoints : List String

/-- `kc.ProcessRecordsInput`: the batch of records and whether a
checkpointer is attached (`input.Checkpointer != nil`). -/
structure ProcessRecordsInput where
  records : List KclRecord
  hasCheckpointer : Bool

/-- The per-record loop of `ProcessRecords` (lines 59–101 of
`record_processor.go`).  A record is skipped when its body is
unparsable, its "time" key is absent or not a string, its "time" value
does not parse as a timestamp, or its "detail" key is absent; otherwise
the re-encoded "detail" value is written to the log and the
`(offset, timestamp)` pair added to the index.  An `Add` failure is a
panic (`none`).  `parseTime` models `time.Parse(time.RFC3339, ·)`. -/
def processLoop (parseTime : String → Option Int) :
    ProcState → List KclRecord → Option ProcState
  | st, [] => some st
  | st, v :: rest =>
    match v.data with
    | none => processLoop parseTime st rest
    | some awsEvent =>
      match lookupField "time" awsEvent with
      | some (.str timestampString) =>
        match parseTime timestampString with
        | none => processLoop parseTime st rest
        | some timestamp =>
          match lookupField "detail" awsEvent with
          | none => processLoop parseTime st rest
          | some cloudEvent =>
            let bytes := jsonMarshal cloudEvent
            let off := (st.log.length : Int)
            let st1 : ProcState := { st with log := st.log ++ [bytes] }
            match add st1.t2o off timestamp with
            | (t2o', none) => processLoop parseTime { st1 with t2o := t2o' } rest
            | (_, some _) => none
      | _ => processLoop parseTime st rest

/-- `dumpRecordProcessor.ProcessRecords` from `record_processor.go`:
return immediately on an empty batch; otherwise run the per-record loop
and then checkpoint once at the last record's sequence number (when a
checkpointer is attached). -/
def processRecords (parseTime : String → Option Int) (st : ProcState)
    (input : ProcessRecordsInput) : Option ProcState :=
  -- don't process empty record
  if input.records.length = 0 then some st
  else
    match processLoop parseTime st input.records with
    | none => none
    | some st' =>
      match input.records.getLast? with
      | none => some st'
      | some lastRecord =>
        if input.hasCheckpointer then
          some { st' with
            checkpoints := st'.checkpoints ++ [lastRecord.sequenceNumber] }
        else some st'

/-- The payload `ProcessRecords` writes to the log for a record that
passes every check (body decodes, string "time" field parses, "detail"
field present): the re-encoded "detail" value.  `none` when the record
is skipped. -/
def acceptedPayload (parseTime : String → Option Int) (v : KclRecord) :
    Option String :=
  match v.data with
  | none => none
  | some awsEvent =>
    match lookupField "time" awsEvent with
    | some (.str timestampString) =>
      match parseTime timestampString with
      | none => none
      | some _ =>
        match lookupField "detail" awsEvent with
        | none => none
        | some cloudEvent => some (jsonMarshal cloudEvent)
    | _ => none

theorem processLoop_log {parseTime : String → Option Int}
    {st st' : ProcState} {records : List KclRecord}
    (h : processLoop parseTime st records = some st') :
    st'.log = st.log ++ records.filterMap (acceptedPayload parseTime) := by
  induction records generalizing st with
  | nil =>
    simp only [processLoop] at h
    injection h with h
    subst h
    simp
  | cons v rest ih =>
    rcases hdata : v.data with _ | awsEvent
    · simp only [processLoop, hdata] at h
      simp only [List.filterMap_cons, acceptedPayload, hdata]
      exact ih h
    · rcases htime : lookupField "time" awsEvent with _ | tv
      · simp only [processLoop, hdata, htime] at h
        simp only [List.filterMap_cons, acceptedPayload, hdata, htime]
        exact ih h
      · cases tv with
        | str timestampString =>
          rcases hparse : parseTime timestampString with _ | timestamp
          · simp only [processLoop, hdata, htime, hparse] at h
            simp only [List.filterMap_cons, acceptedPayload, hdata, htime,
              hparse]
            exact ih h
          · rcases hdetail : lookupField "detail" awsEvent
                with _ | cloudEvent
            · simp only [processLoop, hdata, htime, hparse, hdetail] at h
              simp only [List.filterMap_cons, acceptedPayload, hdata, htime,
                hparse, hdetail]
              exact ih h
            · simp only [processLoop, hdata, htime, hparse, hdetail] at h
              simp only [List.filterMap_cons, acceptedPayload, hdata, htime,
                hparse, hdetail]
              rcases hadd : add st.t2o (st.log.length : Int) timestamp
                with ⟨t2o', e⟩
              rw [hadd] at h
              cases e with
              | none =>
                dsimp only at h
                have h3 := ih h
                simp only at h3
                rw [h3]
                simp
              | some err =>
                dsimp only at h
                exact Option.noConfusion h
        | null =>
          simp only [processLoop, hdata, htime] at h
          simp only [List.filterMap_cons, acceptedPayload, hdata, htime]
          exact ih h
        | jsonBool b =>
          simp only [processLoop, hdata, htime] at h
          simp only [List.filterMap_cons, acceptedPayload, hdata, htime]
          exact ih h
        | num n =>
          simp only [processLoop, hdata, htime] at h
          simp only [List.filterMap_cons, acceptedPayload, hdata, htime]
          exact ih h
        | arr elems =>
          simp only [processLoop, hdata, htime] at h
          simp only [List.filterMap_cons, acceptedPayload, hdata, htime]
          exact ih h
        | obj fields =>
          simp only [processLoop, hdata, htime] at h
          simp only [List.filterMap_cons, acceptedPayload, hdata, htime]
          exact ih h

theorem processLoop_checkpoints {parseTime : String → Option Int}
    {st st' : ProcState} {records : List KclRecord}
    (h : processLoop parseTime st records = some st') :
    st'.checkpoints = st.checkpoints := by
  induction records generalizing st with
  | nil =>
    simp only [processLoop] at h
    injection h with h
    subst h
    rfl
  | cons v rest ih =>
    rcases hdata : v.data with _ | awsEvent
    · simp only [processLoop, hdata] at h
      exact ih h
    · rcases htime : lookupField "time" awsEvent with _ | tv
      · simp only [processLoop, hdata, htime] at h
        exact ih h
      · cases tv with
        | str timestampString =>
          rcases hparse : parseTime timestampString with _ | timestamp
          · simp only [processLoop, hdata, htime, hparse] at h
            exact ih h
          · rcases hdetail : lookupField "detail" awsEvent
                with _ | cloudEvent
            · simp only [processLoop, hdata, htime, hparse, hdetail] at h
              exact ih h
            · simp only [processLoop, hdata, htime, hparse, hdetail] at h
              rcases hadd : add st.t2o (st.log.length : Int) timestamp
                with ⟨t2o', e⟩
              rw [hadd] at h
              cases e with
              | none =>
                dsimp only at h
                exact (ih h).trans rfl
              | some err =>
                dsimp only at h
                exact Option.noConfusion h
        | null =>
          simp only [processLoop, hdata, htime] at h
          exact ih h
        | jsonBool b =>
          simp only [processLoop, hdata, htime] at h
          exact ih h
        | num n =>
          simp only [processLoop, hdata, htime] at h
          exact ih h
        | arr elems =>
          simp only [processLoop, hdata, htime] at h
          exact ih h
        | obj fields =>
          simp only [processLoop, hdata, htime] at h
          exact ih h

/-- Concrete stand-in for `time.Parse(time.RFC3339, ·)` in the witnesses:
accepts exactly one timestamp string. -/
def exParseTime (s : String) : Option Int :=
  if s = "2024-01-01T00:00:00Z" then some 1704067200000 else none

/-- The "time" value shared by the well-formed witness records. -/
def exTime : Json := .str "2024-01-01T00:00:00Z"

/-- A record whose body fails to decode as a JSON object. -/
def exRecUnparsable : KclRecord := ⟨none, "seq1"⟩

/-- A record lacking the "time" key. -/
def exRecNoTime : KclRecord := ⟨some [("detail", .str "d2")], "seq2"⟩

/-- A record lacking the "detail" key. -/
def exRecNoDetail : KclRecord := ⟨some [("time", exTime)], "seq3"⟩

/-- A well-formed record with an object payload. -/
def exRecOk4 : KclRecord :=
  ⟨some [("time", exTime), ("detail", .obj [("a", .num 1)])], "seq4"⟩

/-- A well-formed record with a string payload. -/
def exRecOk5 : KclRecord :=
  ⟨some [("time", exTime), ("detail", .str "payload5")], "seq5"⟩

/-- The §8 batch: one unparsable record, one missing-timestamp record,
one missing-payload record, and two well-formed records, with a
checkpointer attached. -/
def exBatch : ProcessRecordsInput :=
  ⟨[exRecUnparsable, exRecNoTime, exRecNoDetail, exRecOk4, exRecOk5], true⟩

/-- Fresh pipeline state: empty log, fresh capacity-10 index, no
checkpoints. -/
def exProcState0 : ProcState :=
  ⟨[],
   { capacity := 10, lastOffset := -1,
     offset2Timestamp := [], timestamp2Offsets := [] },
   []⟩

/-- The state after processing `exBatch` from `exProcState0`: exactly the
two well-formed records' re-encoded payloads in arrival order, their
offsets 0 and 1 indexed, and one checkpoint at the batch's last sequence
number. -/
def exProcStateF : ProcState :=
  ⟨["\x7b\"a\":1\x7d", "\"payload5\""],
   { capacity := 10, lastOffset := 1,
     offset2Timestamp := [(0, 1704067200000), (1, 1704067200000)],
     timestamp2Offsets := [⟨1704067200000, 0⟩, ⟨1704067200000, 1⟩] },
   ["seq5"]⟩

/-- **C5.** For every batch whose processing completes, records are
handled in arrival order and the log grows by exactly the re-encoded
"detail" payloads of the records that pass every check — an unparsable
body, a missing/unparsable "time" field or a missing "detail" field
skips that record without aborting the batch.  In particular, the §8
batch (one unparsable, one missing-timestamp, one missing-payload, two
well-formed records) yields exactly the two well-formed records'
re-encoded payloads, in their arrival order. -/
theorem processRecords_skip_policy (parseTime : String → Option Int)
    (st : ProcState) (input : ProcessRecordsInput) (st' : ProcState)
    (h : processRecords parseTime st input = some st') :
    (st'.log =
      st.log ++ input.records.filterMap (acceptedPayload parseTime)) ∧
    ((processRecords exParseTime exProcState0 exBatch).map ProcState.log =
      some [jsonMarshal (.obj [("a", .num 1)]),
        jsonMarshal (.str "payload5")]) ∧
    (acceptedPayload exParseTime exRecOk4 =
        some (jsonMarshal (.obj [("a", .num 1)])) ∧
      acceptedPayload exParseTime exRecOk5 =
        some (jsonMarshal (.str "payload5"))) := by
  refine ⟨?_, by rfl, by rfl, by rfl⟩
  simp only [processRecords] at h
  by_cases hlen : input.records.length = 0
  · rw [if_pos hlen] at h
    injection h with h
    subst h
    rw [List.length_eq_zero.mp hlen]
    simp
  · rw [if_neg hlen] at h
    rcases hloop : processLoop parseTime st input.records with _ | st1
    · rw [hloop] at h
      exact Option.noConfusion h
    · rw [hloop] at h
      dsimp only at h
      rcases hlast : input.records.getLast? with _ | lastRecord
      · rw [hlast] at h
        dsimp only at h
        injection h with h
        subst h
        exact processLoop_log hloop
      · rw [hlast] at h
        dsimp only at h
        by_cases hcp : input.hasCheckpointer
        · rw [if_pos hcp] at h
          injection h with h
          subst h
          dsimp only
          exact processLoop_log hloop
        · rw [if_neg hcp] at h
          injection h with h
          subst h
          exact processLoop_log hloop

/-- Witness instantiating `processRecords_skip_policy` on the §8 batch:
from the fresh state, the final log is exactly the accepted payloads. -/
theorem processRecords_skip_policy_witness :
    exProcStateF.log = exProcState0.log ++
      exBatch.records.filterMap (acceptedPayload exParseTime) :=
  (processRecords_skip_policy exParseTime exProcState0 exBatch exProcStateF
    (by rfl)).1

/-- **C6.** For every non-empty batch whose processing completes with a
checkpointer attached, exactly one checkpoint is committed, at the
sequence number of the batch's last record — regardless of how many
records were skipped, and never per-record. -/
theorem processRecords_checkpoint (parseTime : String → Option Int)
    (st : ProcState) (input : ProcessRecordsInput) (st' : ProcState)
    (hne : input.records ≠ [])
    (hcp : input.hasCheckpointer = true)
    (h : processRecords parseTime st input = some st') :
    ∃ lastRecord, input.records.getLast? = some lastRecord ∧
      st'.checkpoints =
        st.checkpoints ++ [lastRecord.sequenceNumber] := by
  simp only [processRecords] at h
  have hlen : ¬ input.records.length = 0 := fun hx =>
    hne (List.length_eq_zero.mp hx)
  rw [if_neg hlen] at h
  rcases hloop : processLoop parseTime st input.records with _ | st1
  · rw [hloop] at h
    exact Option.noConfusion h
  · rw [hloop] at h
    dsimp only at h
    rcases hlast : input.records.getLast? with _ | lastRecord
    · exfalso
      have h2 : input.records.getLast?.isSome = true :=
        List.getLast?_isSome.mpr hne
      rw [hlast] at h2
      exact Bool.noConfusion h2
    · rw [hlast] at h
      dsimp only at h
      rw [hcp] at h
      simp only [if_true] at h
      injection h with h
      subst h
      exact ⟨lastRecord, rfl, by rw [processLoop_checkpoints hloop]⟩

/-- Witness instantiating `processRecords_checkpoint` on the §8 batch:
one checkpoint, at "seq5", the last record's sequence number. -/
theorem processRecords_checkpoint_witness :
    ∃ lastRecord, exBatch.records.getLast? = some lastRecord ∧
      exProcStateF.checkpoints =
        exProcState0.checkpoints ++ [lastRecord.sequenceNumber] :=
  processRecords_checkpoint exParseTime exProcState0 exBatch exProcStateF
    (List.cons_ne_nil _ _) rfl (by rfl)

/-- **C10.** Processing an empty batch is a complete no-op: the result is
`some` of the unchanged state — the log, the timestamp index and the
checkpoint list are all untouched. -/
theorem processRecords_empty_noop (parseTime : String → Option Int)
    (st : ProcState) (b : Bool) :
    processRecords parseTime st ⟨[], b⟩ = some st ∧
    (processRecords parseTime st ⟨[], b⟩).map ProcState.log =
      some st.log ∧
    (processRecords parseTime st ⟨[], b⟩).map ProcState.t2o =
      some st.t2o ∧
    (processRecords parseTime st ⟨[], b⟩).map ProcState.checkpoints =
      some st.checkpoints :=
  ⟨rfl, rfl, rfl, rfl⟩

/-! ### C4: port selection in `NewService` / `Service.Start` -/

/-- `DefaultServicePort` from `service.go`. -/
def DefaultServicePort : Int := 4444

/-- The port-selection logic of `NewService` (`service.go` lines 66–72):
`options.Port` 0 becomes the default 4444, and −1 becomes 0. -/
def newServicePort (optionsPort : Int) : Int :=
  if optionsPort = 0 then DefaultServicePort
  else if optionsPort = -1 then 0
  else optionsPort

/-- `Service.Start` calls `net.Listen("tcp", host:port)` with the stored
port, and the system chooses an ephemeral port exactly when that port is
0. -/
def startBindsEphemeral (optionsPort : Int) : Prop :=
  newServicePort optionsPort = 0

/-- **C4 counterexample.** The claim "configured listen port 0 means
ephemeral" is false at configured port 0: `NewService` maps port 0 to the
default port 4444, so `Start` binds port 4444, not an ephemeral port. -/
theorem port_zero_not_ephemeral :
    newServicePort 0 = 4444 ∧ ¬ startBindsEphemeral 0 := by
  constructor
  · rfl
  · intro h
    rw [startBindsEphemeral] at h
    exact absurd h (by decide)

/-- **C4 (amended).** Configured port −1 (not 0) means ephemeral: with
`Port = -1` the stored port is 0 and `Start` binds an ephemeral port;
with `Port = 0` the stored port is the default 4444; any other configured
port is bound as-is. -/
theorem port_selection :
    (startBindsEphemeral (-1) ∧ newServicePort (-1) = 0) ∧
    newServicePort 0 = DefaultServicePort ∧
    (∀ p : Int, p ≠ 0 → p ≠ -1 → newServicePort p = p) := by
  refine ⟨⟨?_, rfl⟩, rfl, ?_⟩
  · rw [startBindsEphemeral]
    decide
  · intro p h0 h1
    rw [newServicePort, if_neg h0, if_neg h1]

/-- Witness instantiating `port_selection` at the configured port 8080,
which is neither 0 nor −1 and is bound as-is. -/
theorem port_selection_witness : newServicePort 8080 = 8080 :=
  port_selection.2.2 8080 (by decide) (by decide)

/-! ### C7: all-or-nothing `Service.Start` -/

/-- The error `Service.Start` returns: a worker failed to start (with the
failing route's position in iteration order), or all workers started but
`net.Listen` failed. -/
inductive StartError where
  | workerFailed (i : Nat)
  | bindFailed
deriving DecidableEq

/-- Outcome of `Service.Start` in the model: the workers started (in
iteration order), the workers `Start` shut down on its failure paths, and
the returned error. -/
structure StartResult where
  started : List Nat
  stopped : List Nat
  err : Option StartError
deriving DecidableEq

/-- The worker-start loop of `Service.Start` (`service.go` lines
136–151): iterate over the routes' workers (`none` models
`r.wrkr == nil`, skipped with `continue`); a successful start appends the
worker to `started`; a failed start stops the loop, returning the failure
position and the workers started so far. -/
def startWorkersLoop : List (Option Bool) → Nat → List Nat →
    (List Nat × Option Nat)
  | [], _, started => (started, none)
  | none :: rest, i, started => startWorkersLoop rest (i + 1) started
  | some ok :: rest, i, started =>
    if ok then startWorkersLoop rest (i + 1) (started ++ [i])
    else (started, some i)

/-- The `for _, wrkr := range started { wrkr.Shutdown() }` rollback
loop. -/
def shutdownAll : List Nat → List Nat → List Nat
  | stopped, [] => stopped
  | stopped, w :: rest => shutdownAll (stopped ++ [w]) rest

/-- `Service.Start` (`service.go` lines 134–174): start every route's
worker; if one fails, shut down all workers started so far and return
the failure.  Then bind the listener; if binding fails, also shut down
all started workers and return the bind error.  `workers` lists each
route's worker-start outcome in iteration order; `bindOk` is whether
`net.Listen` succeeds. -/
def serviceStart (workers : List (Option Bool)) (bindOk : Bool) :
    StartResult :=
  match startWorkersLoop workers 0 [] with
  | (started, some i) =>
    -- If one of them fails, shut them all down.
    ⟨started, shutdownAll [] started, some (.workerFailed i)⟩
  | (started, none) =>
    if bindOk then ⟨started, [], none⟩
    else
      -- If this fails, also shutdown the KCL workers.
      ⟨started, shutdownAll [] started, some .bindFailed⟩

theorem shutdownAll_eq (l : List Nat) :
    ∀ stopped : List Nat, shutdownAll stopped l = stopped ++ l := by
  induction l with
  | nil =>
    intro stopped
    simp [shutdownAll]
  | cons w rest ih =>
    intro stopped
    rw [shutdownAll, ih]
    simp

/-- **C7.** `Start` is all-or-nothing across routes: whenever it returns
an error — a worker failed to start, or all workers started and the bind
failed — every worker it had started has been shut down (the shutdown
set equals the started set, so no started worker is left running); when
`Start` succeeds it shuts down nothing. -/
theorem serviceStart_all_or_nothing (workers : List (Option Bool))
    (bindOk : Bool) :
    ((serviceStart workers bindOk).err ≠ none →
      (serviceStart workers bindOk).stopped =
        (serviceStart workers bindOk).started ∧
      ∀ i ∈ (serviceStart workers bindOk).started,
        i ∈ (serviceStart workers bindOk).stopped) ∧
    ((serviceStart workers bindOk).err = none →
      (serviceStart workers bindOk).stopped = []) := by
  rcases hloop : startWorkersLoop workers 0 [] with ⟨started, e⟩
  cases e with
  | none =>
    cases bindOk with
    | true =>
      simp only [serviceStart, hloop, if_true]
      exact ⟨fun hc => absurd rfl hc, fun _ => trivial⟩
    | false =>
      simp only [serviceStart, hloop, if_false]
      refine ⟨fun _ => ⟨?_, ?_⟩, fun hc => Option.noConfusion hc⟩
      · rw [shutdownAll_eq]
        simp
      · intro i hi
        rw [shutdownAll_eq]
        simpa using hi
  | some i =>
    simp only [serviceStart, hloop]
    refine ⟨fun _ => ⟨?_, ?_⟩, fun hc => Option.noConfusion hc⟩
    · rw [shutdownAll_eq]
      simp
    · intro j hj
      rw [shutdownAll_eq]
      simpa using hj

/-- Witness instantiating `serviceStart_all_or_nothing`: two routes, the
first worker starts, the second fails; `Start` reports the failure and
the first worker has been stopped. -/
theorem serviceStart_all_or_nothing_witness :
    (serviceStart [some true, some false] true).stopped =
      (serviceStart [some true, some false] true).started ∧
    ∀ i ∈ (serviceStart [some true, some false] true).started,
      i ∈ (serviceStart [some true, some false] true).stopped :=
  (serviceStart_all_or_nothing [some true, some false] true).1 (by decide)

/-! ### C8: request validation in `Service.handleFunc` -/

/-- Outcome of the validation prefix of `Service.handleFunc`
(`service.go` lines 217–242). -/
inductive HandleOutcome where
  | internalServerError
  | badRequest
  | stream (since : Option Int)
deriving DecidableEq

/-- The flusher check and `since` parsing of `Service.handleFunc`:
`flusherOk` models the `http.Flusher` type assertion on the response
writer; `since` is `r.URL.Query().Get("since")` (the empty string when
the parameter is absent); `parseTS` models
`time.Parse(time.RFC3339, ·)`, `parseDuration` models
`time.ParseDuration`, and `now` models `time.Now()` (a duration `d`
resolves to `now − d`).  `stream t` is the handler proceeding to the SSE
loop with resolved timestamp `t`. -/
def handleFunc (parseTS parseDuration : String → Option Int) (now : Int)
    (flusherOk : Bool) (since : String) : HandleOutcome :=
  if !flusherOk then .internalServerError
  else if since ≠ "" then
    match parseTS since with
    | some ts => .stream (some ts)
    | none =>
      match parseDuration since with
      | some d => .stream (some (now - d))
      | none => .badRequest
  else .stream none

/-- **C8.** If the response writer does not support flushing the handler
answers 500 and stops (before looking at `since`); with a flusher, a
present `since` is parsed first as an absolute timestamp, then as a
duration interpreted as `now − d`, and only if both fail does the
handler answer 400; a request without `since` is never rejected with
400. -/
theorem handleFunc_validation (parseTS parseDuration : String → Option Int)
    (now : Int) (flusherOk : Bool) (since : String) :
    (flusherOk = false →
      handleFunc parseTS parseDuration now flusherOk since =
        .internalServerError) ∧
    (flusherOk = true → since ≠ "" → parseTS since = none →
      parseDuration since = none →
      handleFunc parseTS parseDuration now flusherOk since =
        .badRequest) ∧
    (flusherOk = true → since ≠ "" → ∀ ts, parseTS since = some ts →
      handleFunc parseTS parseDuration now flusherOk since =
        .stream (some ts)) ∧
    (flusherOk = true → since ≠ "" → parseTS since = none →
      ∀ d, parseDuration since = some d →
      handleFunc parseTS parseDuration now flusherOk since =
        .stream (some (now - d))) ∧
    (since = "" →
      handleFunc parseTS parseDuration now flusherOk since ≠
        .badRequest) := by
  refine ⟨?_, ?_, ?_, ?_, ?_⟩
  · intro hf
    simp [handleFunc, hf]
  · intro hf hs hts hd
    simp [handleFunc, hf, hs, hts, hd]
  · intro hf hs ts hts
    simp [handleFunc, hf, hs, hts]
  · intro hf hs hts d hd
    simp [handleFunc, hf, hs, hts, hd]
  · intro hs
    cases flusherOk with
    | false => simp [handleFunc]
    | true => simp [handleFunc, hs]

/-- Witness instantiating `handleFunc_validation`: with a flushing
writer and `since = "x"` that parses neither way, the handler answers
400. -/
theorem handleFunc_validation_witness :
    handleFunc (fun _ => none) (fun _ => none) 0 true "x" =
      .badRequest :=
  (handleFunc_validation (fun _ => none) (fun _ => none) 0 true "x").2.1
    rfl (by decide) rfl rfl

end Kinesis2sse
